import Mathlib

/-!
Verification development for the-sprawl, a transit-network map renderer.

Geographic angles (`f32` `Degree` values in the source) are modelled as exact
rationals `ℚ`; machine-integer tile coordinates (`i32`) are modelled as `ℤ`
with the saturating/truncating casts of the source made explicit.
-/

namespace Sprawl

/-- Longitude or latitude angle (src/map.rs `Degree`, an `f32` newtype). -/
abbrev Degree := ℚ

/-- src/constants.rs: screen width in pixels (`u16`). -/
def SCREEN_WIDTH : ℕ := 200

/-- src/constants.rs: screen height in pixels (`u16`). -/
def SCREEN_HEIGHT : ℕ := 150

/-- src/constants.rs: side length in pixels of one map tile. -/
def TILE_SIZE : ℕ := 1

/-- src/constants.rs: `SCREEN_WIDTH / TILE_SIZE`. -/
def NUMBER_OF_TILES_X : ℕ := SCREEN_WIDTH / TILE_SIZE

/-- src/constants.rs: `SCREEN_HEIGHT / TILE_SIZE`. -/
def NUMBER_OF_TILES_Y : ℕ := SCREEN_HEIGHT / TILE_SIZE

/-- src/constants.rs: longitude of the arbitrary (0,0)-tile origin. -/
def JAPAN_CENTER_LONG : Degree := 137.71062

/-- src/constants.rs: latitude of the arbitrary (0,0)-tile origin. -/
def JAPAN_CENTER_LAT : Degree := 36.035645

/-- src/constants.rs: left edge of the default viewport. -/
def JAPAN_LEFT : Degree := 127.59

/-- src/constants.rs: right edge of the default viewport. -/
def JAPAN_RIGHT : Degree := 145.77

/-- src/constants.rs: top edge of the default viewport. -/
def JAPAN_TOP : Degree := 46.5

/-- src/constants.rs: bottom edge of the default viewport. -/
def JAPAN_BOTTOM : Degree := 25.9

/-- src/constants.rs: velocity limit for zoom scrolling. -/
def SCROLL_DIFF_MAX : ℚ := 30

/-- src/constants.rs: the viewport width can never be below this. -/
def MIN_ZOOM : Degree := 0.01

/-- src/constants.rs: the viewport width can never be above this. -/
def MAX_ZOOM : Degree := 80

/-- src/map.rs `MapCoord`: a longitude/latitude pair. -/
@[ext]
structure MapCoord where
  long : Degree
  lat : Degree
deriving DecidableEq

/-- src/tile.rs `Tile`: a discrete grid address (`TilePos` is an `i32` newtype). -/
@[ext]
structure Tile where
  x : ℤ
  y : ℤ
deriving DecidableEq

/-- src/map.rs `MapFrame`: the rectangular viewport, in map coordinates. -/
@[ext]
structure MapFrame where
  upper_left : MapCoord
  lower_right : MapCoord
deriving DecidableEq

/-- src/map.rs `MapFrame::width`. -/
def MapFrame.width (f : MapFrame) : Degree :=
  f.lower_right.long - f.upper_left.long

/-- src/map.rs `MapFrame::height`. -/
def MapFrame.height (f : MapFrame) : Degree :=
  f.upper_left.lat - f.lower_right.lat

/-- Rounding toward zero, the behaviour of Rust `as i32` on a finite float. -/
def ratTrunc (q : ℚ) : ℤ := if 0 ≤ q then ⌊q⌋ else ⌈q⌉

/-- Smallest `i32` value. -/
def I32_MIN : ℤ := -(2 ^ 31)

/-- Largest `i32` value. -/
def I32_MAX : ℤ := 2 ^ 31 - 1

/-- Rust `as i32` cast of a float: truncate toward zero, saturating at the
`i32` bounds (the comment in `MapFrame::get_tile` relies on this saturation). -/
def i32cast (q : ℚ) : ℤ := max I32_MIN (min I32_MAX (ratTrunc q))

/-- src/map.rs `MapFrame::get_tile`: the tile containing a map coordinate. -/
def MapFrame.get_tile (f : MapFrame) (coord : MapCoord) : Tile :=
  let degrees_from_center_x := coord.long - JAPAN_CENTER_LONG
  let degrees_from_center_y := JAPAN_CENTER_LAT - coord.lat
  let degrees_per_tile_x := f.width / (NUMBER_OF_TILES_X : ℚ)
  let degrees_per_tile_y := f.height / (NUMBER_OF_TILES_Y : ℚ)
  { x := i32cast (degrees_from_center_x / degrees_per_tile_x)
    y := i32cast (degrees_from_center_y / degrees_per_tile_y) }

/-- src/map.rs `MapFrame::get_degrees_per_pixel`. -/
def MapFrame.get_degrees_per_pixel (f : MapFrame) : Degree × Degree :=
  (f.width / (SCREEN_WIDTH : ℚ), f.height / (SCREEN_HEIGHT : ℚ))

/-- src/map.rs `MapFrame::is_visible`: inclusion in the viewport, expanded by
a zoom-dependent margin. -/
def MapFrame.is_visible (f : MapFrame) (coord : MapCoord) : Bool :=
  let margin : Degree := if f.height < 0.05 then 0.10 + (0.05 - f.height) else 0
  decide (coord.long ≥ f.upper_left.long - f.width * margin) &&
  decide (coord.long ≤ f.lower_right.long + f.width * margin) &&
  decide (coord.lat ≤ f.upper_left.lat + f.height * margin) &&
  decide (coord.lat ≥ f.lower_right.lat - f.height * margin)

/-- src/map.rs `MapFrame::station_width`: tiles per side of a station square. -/
def MapFrame.station_width (f : MapFrame) : ℤ :=
  if f.height < 0.02 then 5
  else if f.height < 0.05 then 4
  else if f.height < 0.1 then 3
  else if f.height < 0.3 then 2
  else 1

/-- src/map.rs `MapFrame::track_width`: tiles per side of a track square. -/
def MapFrame.track_width (f : MapFrame) : ℤ :=
  if f.height < 0.06 then 2 else 1

/-- src/map.rs `MapFrame::default`: the viewport fitting most of Japan. -/
def MapFrame.default : MapFrame :=
  { upper_left := { long := JAPAN_LEFT, lat := JAPAN_TOP }
    lower_right := { long := JAPAN_RIGHT, lat := JAPAN_BOTTOM } }

/-- src/map.rs `zoom_ratio`: the side-length ratio for a scroll amount. -/
def zoom_ratio (scroll_diff : ℚ) : ℚ :=
  let clamped : ℚ :=
    if scroll_diff > SCROLL_DIFF_MAX then SCROLL_DIFF_MAX
    else if scroll_diff < -1 * SCROLL_DIFF_MAX then -1 * SCROLL_DIFF_MAX
    else scroll_diff
  let sign : ℚ := if 0 ≤ clamped then 1 else -1
  let ratio : ℚ := |clamped| / SCROLL_DIFF_MAX
  let offset : ℚ :=
    if ratio < 0.33 then 0.10 else if ratio < 0.66 then 0.20 else 0.30
  1 - offset * sign

/-- src/world.rs `World::zoom`, lines 112-145: the proposed new viewport width
(`new_length`), computed before the range check. -/
def zoomProposedWidth (f : MapFrame) (mouse_cell : ℤ × ℤ) (scroll_diff : ℚ) : Degree :=
  let x_factor : ℚ := (mouse_cell.1 : ℚ) / (SCREEN_WIDTH : ℚ)
  let ratio := zoom_ratio scroll_diff
  let current_x_size := f.width
  let target_x_size := current_x_size * ratio
  let amount_to_change_x : Degree := target_x_size - current_x_size
  let left_change : Degree := amount_to_change_x * (x_factor * (-1))
  let right_change : Degree := amount_to_change_x * (1 - x_factor)
  let new_left : Degree := f.upper_left.long + left_change
  let new_right : Degree := f.lower_right.long + right_change
  new_right - new_left

/-- src/world.rs `World::zoom`: resize the viewport about the mouse position,
rejecting the request (no state change) when the proposed width leaves
`[MIN_ZOOM, MAX_ZOOM]`.  The `update_base_map` side effect does not touch the
viewport and is modelled separately. -/
def zoom (f : MapFrame) (mouse_cell : ℤ × ℤ) (scroll_diff : ℚ) : MapFrame :=
  let x_factor : ℚ := (mouse_cell.1 : ℚ) / (SCREEN_WIDTH : ℚ)
  let y_factor : ℚ := (mouse_cell.2 : ℚ) / (SCREEN_HEIGHT : ℚ)
  let ratio := zoom_ratio scroll_diff
  let current_x_size := f.width
  let current_y_size := f.height
  let target_x_size := current_x_size * ratio
  let target_y_size := current_y_size * ratio
  let amount_to_change_x : Degree := target_x_size - current_x_size
  let left_change : Degree := amount_to_change_x * (x_factor * (-1))
  let right_change : Degree := amount_to_change_x * (1 - x_factor)
  let new_left : Degree := f.upper_left.long + left_change
  let new_right : Degree := f.lower_right.long + right_change
  let new_length : Degree := new_right - new_left
  if new_length > MAX_ZOOM ∨ new_length < MIN_ZOOM then f
  else
    let amount_to_change_y := target_y_size - current_y_size
    let top_change := amount_to_change_y * y_factor
    let bottom_change := amount_to_change_y * ((1 - y_factor) * (-1))
    { upper_left :=
        { long := f.upper_left.long + left_change
          lat := f.upper_left.lat + top_change }
      lower_right :=
        { long := f.lower_right.long + right_change
          lat := f.lower_right.lat + bottom_change } }

/-- src/world.rs `World::pan`: shift all four viewport edges by a pixel delta
converted to degrees at the current per-pixel scale. -/
def pan (f : MapFrame) (diff_x diff_y : ℤ) : MapFrame :=
  let dpp := f.get_degrees_per_pixel
  { upper_left :=
      { long := f.upper_left.long - (diff_x : ℚ) * dpp.1
        lat := f.upper_left.lat + (diff_y : ℚ) * dpp.2 }
    lower_right :=
      { long := f.lower_right.long - (diff_x : ℚ) * dpp.1
        lat := f.lower_right.lat + (diff_y : ℚ) * dpp.2 } }

/-! ### Monotonicity of the float-to-integer casts -/

theorem ratTrunc_mono {p q : ℚ} (h : p ≤ q) : ratTrunc p ≤ ratTrunc q := by
  unfold ratTrunc
  by_cases hp : 0 ≤ p <;> by_cases hq : 0 ≤ q <;> simp only [hp, hq, if_true, if_false]
  · exact Int.floor_mono h
  · exact absurd (hp.trans h) hq
  · calc ⌈p⌉ ≤ 0 := Int.ceil_le.mpr (by exact_mod_cast (le_of_not_le hp))
      _ ≤ ⌊q⌋ := Int.le_floor.mpr (by exact_mod_cast hq)
  · exact Int.ceil_mono h

theorem i32cast_mono {p q : ℚ} (h : p ≤ q) : i32cast p ≤ i32cast q :=
  max_le_max le_rfl (min_le_min le_rfl (ratTrunc_mono h))

/-! ### C1: zoom keeps the viewport width in `[MIN_ZOOM, MAX_ZOOM]` -/

/-- C1: for every viewport whose width lies in `[MIN_ZOOM, MAX_ZOOM]` and
every zoom request, the width after `World::zoom` still lies in that range,
and whenever the proposed new width falls outside the range the zoom leaves
all four viewport edges unchanged. -/
theorem zoom_width_invariant (f : MapFrame) (mouse_cell : ℤ × ℤ) (scroll_diff : ℚ)
    (hlo : MIN_ZOOM ≤ f.width) (hhi : f.width ≤ MAX_ZOOM) :
    (MIN_ZOOM ≤ (zoom f mouse_cell scroll_diff).width ∧
      (zoom f mouse_cell scroll_diff).width ≤ MAX_ZOOM) ∧
    (zoomProposedWidth f mouse_cell scroll_diff > MAX_ZOOM ∨
        zoomProposedWidth f mouse_cell scroll_diff < MIN_ZOOM →
      zoom f mouse_cell scroll_diff = f) := by
  simp only [zoom, zoomProposedWidth]
  split
  · exact ⟨⟨hlo, hhi⟩, fun _ => rfl⟩
  · rename_i hacc
    push_neg at hacc
    refine ⟨⟨?_, ?_⟩, fun hrej => ?_⟩
    · have := hacc.2
      simp only [MapFrame.width] at *
      linarith
    · have := hacc.1
      simp only [MapFrame.width] at *
      linarith
    · rcases hrej with hrej | hrej
      · exact absurd hrej (not_lt.mpr hacc.1)
      · exact absurd hrej (not_lt.mpr hacc.2)

/-- Witness for C1 at the default Japan viewport, mouse cell (0,0), scroll 0. -/
theorem zoom_width_invariant_witness :
    (MIN_ZOOM ≤ MapFrame.default.width ∧ MapFrame.default.width ≤ MAX_ZOOM) ∧
      MIN_ZOOM ≤ (zoom MapFrame.default (0, 0) 0).width ∧
      (zoom MapFrame.default (0, 0) 0).width ≤ MAX_ZOOM := by
  have h1 : MIN_ZOOM ≤ MapFrame.default.width := by
    norm_num [MIN_ZOOM, MapFrame.default, MapFrame.width, JAPAN_LEFT, JAPAN_RIGHT]
  have h2 : MapFrame.default.width ≤ MAX_ZOOM := by
    norm_num [MAX_ZOOM, MapFrame.default, MapFrame.width, JAPAN_LEFT, JAPAN_RIGHT]
  exact ⟨⟨h1, h2⟩, (zoom_width_invariant MapFrame.default (0, 0) 0 h1 h2).1⟩

/-! ### C9: pan is inverted by the opposite pan -/

theorem pan_width (f : MapFrame) (dx dy : ℤ) : (pan f dx dy).width = f.width := by
  simp only [pan, MapFrame.width]
  ring

theorem pan_height (f : MapFrame) (dx dy : ℤ) : (pan f dx dy).height = f.height := by
  simp only [pan, MapFrame.height]
  ring

/-- C9: `World::pan(dx, dy)` followed by `World::pan(-dx, -dy)` restores all
four viewport edge coordinates exactly (the `f32` arithmetic is idealised as
exact rational arithmetic, so the restoration is exact rather than within a
floating-point tolerance); pan itself is total, with no bounds clamp. -/
theorem pan_inverse (f : MapFrame) (dx dy : ℤ) :
    pan (pan f dx dy) (-dx) (-dy) = f := by
  ext <;>
    simp only [pan, MapFrame.get_degrees_per_pixel, MapFrame.width, MapFrame.height,
      Int.cast_neg] <;>
    ring

/-! ### C8: `MapFrame::get_tile` is monotone in each axis -/

/-- C8: for a viewport of positive width and height, `get_tile` is monotone
along each axis: with latitude fixed, a larger longitude never gives a smaller
tile x; with longitude fixed, a smaller latitude never gives a smaller tile y. -/
theorem get_tile_monotone (f : MapFrame) (hw : 0 < f.width) (hh : 0 < f.height) :
    (∀ lat lon1 lon2 : Degree, lon1 ≤ lon2 →
      (f.get_tile ⟨lon1, lat⟩).x ≤ (f.get_tile ⟨lon2, lat⟩).x) ∧
    (∀ lon lat1 lat2 : Degree, lat2 ≤ lat1 →
      (f.get_tile ⟨lon, lat1⟩).y ≤ (f.get_tile ⟨lon, lat2⟩).y) := by
  constructor
  · intro lat lon1 lon2 hle
    apply i32cast_mono
    have hpt : (0:ℚ) < f.width / (NUMBER_OF_TILES_X : ℚ) := by
      apply div_pos hw
      norm_num [NUMBER_OF_TILES_X, SCREEN_WIDTH, TILE_SIZE]
    exact (div_le_div_iff_of_pos_right hpt).mpr (by linarith)
  · intro lon lat1 lat2 hle
    apply i32cast_mono
    have hpt : (0:ℚ) < f.height / (NUMBER_OF_TILES_Y : ℚ) := by
      apply div_pos hh
      norm_num [NUMBER_OF_TILES_Y, SCREEN_HEIGHT, TILE_SIZE]
    exact (div_le_div_iff_of_pos_right hpt).mpr (by linarith)

/-- Witness for C8 at the default viewport and two concrete coordinates. -/
theorem get_tile_monotone_witness :
    (0 < MapFrame.default.width ∧ 0 < MapFrame.default.height) ∧
      (MapFrame.default.get_tile ⟨130, 30⟩).x ≤
        (MapFrame.default.get_tile ⟨131, 30⟩).x := by
  have hw : 0 < MapFrame.default.width := by
    norm_num [MapFrame.default, MapFrame.width, JAPAN_LEFT, JAPAN_RIGHT]
  have hh : 0 < MapFrame.default.height := by
    norm_num [MapFrame.default, MapFrame.height, JAPAN_TOP, JAPAN_BOTTOM]
  exact ⟨⟨hw, hh⟩,
    (get_tile_monotone MapFrame.default hw hh).1 30 130 131 (by norm_num)⟩

/-! ### The supercover line rasterizer

`World::update_base_map` and `Train::get_current_path` both rasterize lines
with `Supercover::new` from the external `line_drawing` dependency, whose code
is not part of this repository. -/

/-- Modelled from the spec: one step of the 8-connected supercover walk of the
external `line_drawing` dependency.  The walk state counts crossed half-grid
lines `(ix, iy)` with `0 ≤ ix ≤ nx = |dx|`, `0 ≤ iy ≤ ny = |dy|`; comparing
`(2*ix+1)*ny` with `(2*iy+1)*nx` compares the parameters of the next vertical
and horizontal half-grid crossings without division, and an exact tie (the
segment passes over a corner) advances diagonally. -/
def scNext (nx ny : ℕ) (s : ℕ × ℕ) : ℕ × ℕ :=
  let a := (2 * s.1 + 1) * ny
  let b := (2 * s.2 + 1) * nx
  if a < b then (s.1 + 1, s.2)
  else if b < a then (s.1, s.2 + 1)
  else (s.1 + 1, s.2 + 1)

/-- The supercover walk state list, with explicit fuel (each step consumes at
least one of the `nx + ny + 1` available crossings, so `nx + ny + 2` suffices). -/
def scWalk (nx ny : ℕ) : ℕ → ℕ × ℕ → List (ℕ × ℕ)
  | 0, _ => []
  | fuel + 1, s =>
    if s.1 ≤ nx ∧ s.2 ≤ ny then s :: scWalk nx ny fuel (scNext nx ny s) else []

/-- The full supercover state list from `(0, 0)`. -/
def scList (nx ny : ℕ) : List (ℕ × ℕ) := scWalk nx ny (nx + ny + 2) (0, 0)

/-- Modelled from the spec: `Supercover::new(a, b)` collected to a list, as
used by `Train::get_current_path` and `World::update_base_map`: the walk state
is mapped to grid points from `a` with the signs of the deltas. -/
def supercover (a b : Tile) : List Tile :=
  let dx := b.x - a.x
  let dy := b.y - a.y
  (scList dx.natAbs dy.natAbs).map
    (fun s => { x := a.x + dx.sign * s.1, y := a.y + dy.sign * s.2 })

/-- Invariant of reachable walk states: in range, and the two half-grid
crossing parameters stay within one grid cell of each other
(`-2*nx < (2*ix+1)*ny - (2*iy+1)*nx < 2*ny`, written without subtraction). -/
def SCInv (nx ny : ℕ) (s : ℕ × ℕ) : Prop :=
  s.1 ≤ nx ∧ s.2 ≤ ny ∧
  (2 * s.2 + 1) * nx < (2 * s.1 + 1) * ny + 2 * nx ∧
  (2 * s.1 + 1) * ny < (2 * s.2 + 1) * nx + 2 * ny

/-- The flip that sends a walk state to its mirror along the reversed line. -/
def scFlip (nx ny : ℕ) (s : ℕ × ℕ) : ℕ × ℕ := (nx - s.1, ny - s.2)

theorem scInv_init (nx ny : ℕ) (hnd : 0 < nx + ny) : SCInv nx ny (0, 0) := by
  simp only [SCInv]
  omega

/-- Arithmetic core of the in-range invariant: the walk can never be asked to
step right of column `nx` while a horizontal crossing is still pending. -/
theorem sc_bound_x {nx ny j : ℕ} (hj : j + 1 ≤ ny)
    (h : (2 * nx + 1) * ny ≤ (2 * j + 1) * nx) : False := by
  have h5 : (2 * j + 1) * nx + 2 * nx ≤ (2 * ny + 1) * nx := by
    have h6 : (2 * j + 1) + 2 ≤ 2 * ny + 1 := by omega
    calc (2 * j + 1) * nx + 2 * nx = (2 * j + 1 + 2) * nx := by ring
      _ ≤ (2 * ny + 1) * nx := Nat.mul_le_mul_right _ h6
  nlinarith [h, h5, hj]

theorem scInv_next (nx ny : ℕ) (_hnd : 0 < nx + ny) (s : ℕ × ℕ)
    (hs : SCInv nx ny s) (hne : s ≠ (nx, ny)) : SCInv nx ny (scNext nx ny s) := by
  obtain ⟨i, j⟩ := s
  obtain ⟨h1, h2, h3, h4⟩ := hs
  simp only at h1 h2 h3 h4
  have hne2 : i ≠ nx ∨ j ≠ ny := by
    by_contra hc
    push_neg at hc
    exact hne (by simp [hc.1, hc.2])
  simp only [scNext, SCInv]
  split_ifs with hlt hgt
  · -- x-step
    have hi : i + 1 ≤ nx := by
      by_contra hc
      have hieq : i = nx := by omega
      rw [hieq] at hlt h3
      have hj : j + 1 ≤ ny := by
        rcases hne2 with h | h
        · omega
        · omega
      exact sc_bound_x hj hlt.le
    exact ⟨hi, h2, by nlinarith [h3], by nlinarith [hlt]⟩
  · -- y-step
    have hj : j + 1 ≤ ny := by
      by_contra hc
      have hjeq : j = ny := by omega
      rw [hjeq] at hgt h4
      have hi2 : i + 1 ≤ nx := by
        rcases hne2 with h | h
        · omega
        · omega
      exact @sc_bound_x ny nx i hi2 hgt.le
    exact ⟨h1, hj, by nlinarith [hgt], by nlinarith [h4]⟩
  · -- diagonal step at an exact corner crossing
    have heq : (2 * i + 1) * ny = (2 * j + 1) * nx := by omega
    have hnx : 0 < nx := by
      rcases Nat.eq_zero_or_pos nx with h0 | h
      · rw [h0] at heq
        simp only [Nat.mul_zero] at heq
        rcases Nat.mul_eq_zero.mp heq with h | h
        · omega
        · omega
      · exact h
    have hny : 0 < ny := by
      rcases Nat.eq_zero_or_pos ny with h0 | h
      · rw [h0] at heq
        simp only [Nat.mul_zero] at heq
        rcases Nat.mul_eq_zero.mp heq.symm with h | h
        · omega
        · omega
      · exact h
    have hi : i + 1 ≤ nx := by
      by_contra hc
      have hieq : i = nx := by omega
      rw [hieq] at heq
      have hj : j + 1 ≤ ny := by
        rcases hne2 with h | h
        · omega
        · omega
      exact sc_bound_x hj heq.le
    have hj : j + 1 ≤ ny := by
      by_contra hc
      have hjeq : j = ny := by omega
      rw [hjeq] at heq
      have hi2 : i + 1 ≤ nx := by
        rcases hne2 with h | h
        · omega
        · omega
      exact @sc_bound_x ny nx i hi2 heq.ge
    exact ⟨hi, hj, by nlinarith [heq, hny], by nlinarith [heq, hnx]⟩

theorem scWalk_out (nx ny : ℕ) (s : ℕ × ℕ) (h : ¬(s.1 ≤ nx ∧ s.2 ≤ ny)) :
    ∀ fuel, scWalk nx ny fuel s = [] := by
  intro fuel
  cases fuel <;> simp [scWalk, h]

theorem scWalk_succ (nx ny fuel : ℕ) (s : ℕ × ℕ) (h : s.1 ≤ nx ∧ s.2 ≤ ny) :
    scWalk nx ny (fuel + 1) s = s :: scWalk nx ny fuel (scNext nx ny s) := by
  simp [scWalk, h]

theorem scNext_end_out (nx ny : ℕ) :
    ¬((scNext nx ny (nx, ny)).1 ≤ nx ∧ (scNext nx ny (nx, ny)).2 ≤ ny) := by
  simp only [scNext]
  split_ifs <;> simp

theorem scWalk_head (nx ny fuel : ℕ) (s : ℕ × ℕ) :
    ∀ b ∈ (scWalk nx ny fuel s).head?, b = s := by
  cases fuel with
  | zero => simp [scWalk]
  | succ n =>
    simp only [scWalk]
    split <;> simp

theorem scWalk_mem_inv (nx ny : ℕ) (hnd : 0 < nx + ny) :
    ∀ fuel (s : ℕ × ℕ), SCInv nx ny s → ∀ t ∈ scWalk nx ny fuel s, SCInv nx ny t := by
  intro fuel
  induction fuel with
  | zero => simp [scWalk]
  | succ n ih =>
    intro s hs t ht
    rw [scWalk_succ nx ny n s ⟨hs.1, hs.2.1⟩] at ht
    rcases List.mem_cons.mp ht with h | h
    · exact h ▸ hs
    · by_cases hend : s = (nx, ny)
      · rw [hend, scWalk_out nx ny _ (scNext_end_out nx ny) n] at h
        simp at h
      · exact ih (scNext nx ny s) (scInv_next nx ny hnd s hs hend) t h

theorem scWalk_chain (nx ny : ℕ) (hnd : 0 < nx + ny) :
    ∀ fuel (s : ℕ × ℕ), SCInv nx ny s →
      List.Chain'
        (fun a b => b = scNext nx ny a ∧ SCInv nx ny a ∧ SCInv nx ny b)
        (scWalk nx ny fuel s) := by
  intro fuel
  induction fuel with
  | zero => simp [scWalk]
  | succ n ih =>
    intro s hs
    rw [scWalk_succ nx ny n s ⟨hs.1, hs.2.1⟩]
    by_cases hend : s = (nx, ny)
    · rw [hend, scWalk_out nx ny _ (scNext_end_out nx ny) n]
      simp
    · have hnext := scInv_next nx ny hnd s hs hend
      refine List.chain'_cons'.mpr ⟨?_, ih (scNext nx ny s) hnext⟩
      intro b hb
      have := scWalk_head nx ny n (scNext nx ny s) b hb
      exact ⟨this, hs, this ▸ hnext⟩

theorem scWalk_last (nx ny : ℕ) (hnd : 0 < nx + ny) :
    ∀ fuel (s : ℕ × ℕ), SCInv nx ny s → (nx - s.1) + (ny - s.2) < fuel →
      (scWalk nx ny fuel s).getLast? = some (nx, ny) := by
  intro fuel
  induction fuel with
  | zero => omega
  | succ n ih =>
    intro s hs hfuel
    rw [scWalk_succ nx ny n s ⟨hs.1, hs.2.1⟩]
    by_cases hend : s = (nx, ny)
    · rw [hend, scWalk_out nx ny _ (scNext_end_out nx ny) n]
      simp [hend]
    · have hnext := scInv_next nx ny hnd s hs hend
      have hmeas : (nx - (scNext nx ny s).1) + (ny - (scNext nx ny s).2) <
          (nx - s.1) + (ny - s.2) := by
        have h1 := hnext.1
        have h2 := hnext.2.1
        have hne2 : s.1 ≠ nx ∨ s.2 ≠ ny := by
          by_contra hc
          push_neg at hc
          exact hend (Prod.ext hc.1 hc.2)
        simp only [scNext] at h1 h2 ⊢
        split_ifs at h1 h2 ⊢ <;> simp only at h1 h2 ⊢ <;> omega
      have htail := ih (scNext nx ny s) hnext (by omega)
      have hne : scWalk nx ny n (scNext nx ny s) ≠ [] := by
        intro hempty
        rw [hempty] at htail
        simp at htail
      rcases hlist : scWalk nx ny n (scNext nx ny s) with _ | ⟨b, l2⟩
      · exact absurd hlist hne
      · rw [hlist] at htail
        rw [List.getLast?_cons_cons]
        exact htail

/-- Flipping is an involution on in-range states. -/
theorem scFlip_flip (nx ny : ℕ) (s : ℕ × ℕ) (h1 : s.1 ≤ nx) (h2 : s.2 ≤ ny) :
    scFlip nx ny (scFlip nx ny s) = s := by
  simp only [scFlip]
  ext <;> simp <;> omega

/-- The step taken by the reversed walk undoes the forward step: from the
flipped successor state, the walk steps to the flipped predecessor. -/
theorem scNext_flip (nx ny : ℕ) (s : ℕ × ℕ) (hs : SCInv nx ny s)
    (ht : SCInv nx ny (scNext nx ny s)) :
    scNext nx ny (scFlip nx ny (scNext nx ny s)) = scFlip nx ny s := by
  obtain ⟨i, j⟩ := s
  obtain ⟨h1, h2, h3, h4⟩ := hs
  simp only at h1 h2 h3 h4
  by_cases hlt : (2 * i + 1) * ny < (2 * j + 1) * nx
  · -- forward x-step
    have hstep : scNext nx ny (i, j) = (i + 1, j) := by
      simp [scNext, hlt]
    rw [hstep] at ht ⊢
    have hi1 : i + 1 ≤ nx := ht.1
    simp only [scFlip]
    have ha : (2 * (nx - (i + 1)) + 1) * ny < (2 * (ny - j) + 1) * nx := by
      obtain ⟨p, hp⟩ : ∃ p, nx = i + 1 + p := ⟨nx - (i + 1), by omega⟩
      obtain ⟨q, hq⟩ : ∃ q, ny = j + q := ⟨ny - j, by omega⟩
      subst hp hq
      have e1 : i + 1 + p - (i + 1) = p := by omega
      have e2 : j + q - j = q := by omega
      rw [e1, e2]
      nlinarith [h3]
    simp only [scNext, ha, if_true]
    have : nx - (i + 1) + 1 = nx - i := by omega
    rw [this]
  · by_cases hgt : (2 * j + 1) * nx < (2 * i + 1) * ny
    · -- forward y-step
      have hstep : scNext nx ny (i, j) = (i, j + 1) := by
        simp [scNext, hlt, hgt]
      rw [hstep] at ht ⊢
      have hj1 : j + 1 ≤ ny := ht.2.1
      simp only [scFlip]
      have hb : (2 * (ny - (j + 1)) + 1) * nx < (2 * (nx - i) + 1) * ny := by
        obtain ⟨p, hp⟩ : ∃ p, nx = i + p := ⟨nx - i, by omega⟩
        obtain ⟨q, hq⟩ : ∃ q, ny = j + 1 + q := ⟨ny - (j + 1), by omega⟩
        subst hp hq
        have e1 : i + p - i = p := by omega
        have e2 : j + 1 + q - (j + 1) = q := by omega
        rw [e1, e2]
        nlinarith [h4]
      have hnlt : ¬((2 * (nx - i) + 1) * ny < (2 * (ny - (j + 1)) + 1) * nx) :=
        Nat.lt_asymm hb
      simp only [scNext, hnlt, if_false, hb, if_true]
      have : ny - (j + 1) + 1 = ny - j := by omega
      rw [this]
    · -- forward diagonal step
      have heq : (2 * i + 1) * ny = (2 * j + 1) * nx := by omega
      have hstep : scNext nx ny (i, j) = (i + 1, j + 1) := by
        simp [scNext, hlt, hgt]
      rw [hstep] at ht ⊢
      have hi1 : i + 1 ≤ nx := ht.1
      have hj1 : j + 1 ≤ ny := ht.2.1
      simp only [scFlip]
      have heq2 : (2 * (nx - (i + 1)) + 1) * ny = (2 * (ny - (j + 1)) + 1) * nx := by
        obtain ⟨p, hp⟩ : ∃ p, nx = i + 1 + p := ⟨nx - (i + 1), by omega⟩
        obtain ⟨q, hq⟩ : ∃ q, ny = j + 1 + q := ⟨ny - (j + 1), by omega⟩
        subst hp hq
        have e1 : i + 1 + p - (i + 1) = p := by omega
        have e2 : j + 1 + q - (j + 1) = q := by omega
        rw [e1, e2]
        nlinarith [heq]
      have hnlt1 : ¬((2 * (nx - (i + 1)) + 1) * ny < (2 * (ny - (j + 1)) + 1) * nx) := by
        omega
      have hnlt2 : ¬((2 * (ny - (j + 1)) + 1) * nx < (2 * (nx - (i + 1)) + 1) * ny) := by
        omega
      simp only [scNext, hnlt1, if_false, hnlt2]
      have e3 : nx - (i + 1) + 1 = nx - i := by omega
      have e4 : ny - (j + 1) + 1 = ny - j := by omega
      rw [e3, e4]

/-- Two lists tracing the same deterministic step function, with equal length
and equal head, are equal. -/
theorem chain_fun_eq {α : Type} (g : α → α) :
    ∀ (l1 l2 : List α), l1.length = l2.length → l1.head? = l2.head? →
      List.Chain' (fun a b => b = g a) l1 → List.Chain' (fun a b => b = g a) l2 →
      l1 = l2 := by
  intro l1
  induction l1 with
  | nil =>
    intro l2 hlen _ _ _
    cases l2 with
    | nil => rfl
    | cons b l2 => simp at hlen
  | cons a l ih =>
    intro l2 hlen hhead hc1 hc2
    cases l2 with
    | nil => simp at hlen
    | cons b l2 =>
      have hab : a = b := by simpa using hhead
      subst hab
      have htl : l = l2 := by
        apply ih l2 (by simpa using hlen) ?_ hc1.tail hc2.tail
        cases l with
        | nil =>
          cases l2 with
          | nil => rfl
          | cons c l2 => simp at hlen
        | cons c l =>
          cases l2 with
          | nil => simp at hlen
          | cons d l2 =>
            have hc : c = g a := (List.chain'_cons.mp hc1).1
            have hd : d = g a := (List.chain'_cons.mp hc2).1
            simp [hc, hd]
      rw [htl]

theorem scList_head (nx ny : ℕ) : (scList nx ny).head? = some (0, 0) := by
  simp [scList, scWalk]

theorem scList_last (nx ny : ℕ) : (scList nx ny).getLast? = some (nx, ny) := by
  by_cases hnd : 0 < nx + ny
  · exact scWalk_last nx ny hnd (nx + ny + 2) (0, 0) (scInv_init nx ny hnd) (by omega)
  · have hx : nx = 0 := by omega
    have hy : ny = 0 := by omega
    rw [hx, hy]
    rfl

/-- The supercover state list reversed is the state list flipped: the walk is
symmetric under reversing the direction of the line. -/
theorem scList_reverse (nx ny : ℕ) :
    (scList nx ny).reverse = (scList nx ny).map (scFlip nx ny) := by
  by_cases hnd : 0 < nx + ny
  · have hchain := scWalk_chain nx ny hnd (nx + ny + 2) (0, 0) (scInv_init nx ny hnd)
    have hchain2 : List.Chain'
        (fun a b => b = scNext nx ny a ∧ SCInv nx ny a ∧ SCInv nx ny b)
        (scList nx ny) := hchain
    set g : ℕ × ℕ → ℕ × ℕ :=
      fun u => scFlip nx ny (scNext nx ny (scFlip nx ny u)) with hg
    apply chain_fun_eq g
    · simp
    · rw [List.head?_reverse, scList_last, List.head?_map, scList_head]
      simp [scFlip]
    · rw [List.chain'_reverse]
      apply hchain2.imp
      intro s t hst
      obtain ⟨hstep, hs, ht⟩ := hst
      subst hstep
      show s = g (scNext nx ny s)
      rw [hg]
      simp only
      rw [scNext_flip nx ny s hs ht, scFlip_flip nx ny s hs.1 hs.2.1]
    · rw [List.chain'_map]
      apply hchain2.imp
      intro s t hst
      obtain ⟨hstep, hs, ht⟩ := hst
      subst hstep
      show scFlip nx ny (scNext nx ny s) = g (scFlip nx ny s)
      rw [hg]
      simp only
      rw [scFlip_flip nx ny s hs.1 hs.2.1]
  · have hx : nx = 0 := by omega
    have hy : ny = 0 := by omega
    rw [hx, hy]
    rfl

theorem supercover_head (a b : Tile) : (supercover a b).head? = some a := by
  simp only [supercover, List.head?_map, scList_head, Option.map_some']
  simp

theorem supercover_last (a b : Tile) : (supercover a b).getLast? = some b := by
  simp only [supercover, List.getLast?_map, scList_last, Option.map_some']
  have hx : (b.x - a.x).sign * ((b.x - a.x).natAbs : ℤ) = b.x - a.x :=
    Int.sign_mul_natAbs _
  have hy : (b.y - a.y).sign * ((b.y - a.y).natAbs : ℤ) = b.y - a.y :=
    Int.sign_mul_natAbs _
  simp only [hx, hy, Option.some.injEq]
  ext <;> simp

theorem supercover_chain (a b : Tile) :
    List.Chain' (fun t u => max (u.x - t.x).natAbs (u.y - t.y).natAbs = 1)
      (supercover a b) := by
  by_cases hnd : 0 < (b.x - a.x).natAbs + (b.y - a.y).natAbs
  · have hchain := scWalk_chain (b.x - a.x).natAbs (b.y - a.y).natAbs hnd
      ((b.x - a.x).natAbs + (b.y - a.y).natAbs + 2) (0, 0)
      (scInv_init _ _ hnd)
    simp only [supercover]
    rw [List.chain'_map]
    refine List.Chain'.imp ?_ hchain
    intro s t hst
    obtain ⟨hstep, hs, ht⟩ := hst
    subst hstep
    obtain ⟨i, j⟩ := s
    simp only [scNext]
    split_ifs with h1 h2 <;> dsimp only
    · -- x-step: the x sign is nonzero since an x crossing is pending
      have hnx : (b.x - a.x) ≠ 0 := by
        intro h0
        rw [h0] at h1
        simp at h1
      have e1 : a.x + (b.x - a.x).sign * ((i : ℤ) + 1) -
          (a.x + (b.x - a.x).sign * (i : ℤ)) = (b.x - a.x).sign := by ring
      have e2 : a.y + (b.y - a.y).sign * (j : ℤ) -
          (a.y + (b.y - a.y).sign * (j : ℤ)) = 0 := by ring
      push_cast
      rw [e1, e2]
      simp [Int.natAbs_sign_of_nonzero hnx]
    · -- y-step
      have hny : (b.y - a.y) ≠ 0 := by
        intro h0
        rw [h0] at h2
        simp at h2
      have e1 : a.x + (b.x - a.x).sign * (i : ℤ) -
          (a.x + (b.x - a.x).sign * (i : ℤ)) = 0 := by ring
      have e2 : a.y + (b.y - a.y).sign * ((j : ℤ) + 1) -
          (a.y + (b.y - a.y).sign * (j : ℤ)) = (b.y - a.y).sign := by ring
      push_cast
      rw [e1, e2]
      simp [Int.natAbs_sign_of_nonzero hny]
    · -- diagonal step: both signs are nonzero
      have heq : (2 * i + 1) * (b.y - a.y).natAbs =
          (2 * j + 1) * (b.x - a.x).natAbs := by omega
      have hnx : (b.x - a.x) ≠ 0 := by
        intro h0
        have hz : (b.x - a.x).natAbs = 0 := by simp [h0]
        have hy0 : (b.y - a.y).natAbs = 0 := by
          have h5 : (2 * i + 1) * (b.y - a.y).natAbs = 0 := by
            rw [heq, hz, Nat.mul_zero]
          rcases Nat.mul_eq_zero.mp h5 with h | h
          · omega
          · exact h
        omega
      have hny : (b.y - a.y) ≠ 0 := by
        intro h0
        have hz : (b.y - a.y).natAbs = 0 := by simp [h0]
        have hx0 : (b.x - a.x).natAbs = 0 := by
          have h5 : (2 * j + 1) * (b.x - a.x).natAbs = 0 := by
            rw [← heq, hz, Nat.mul_zero]
          rcases Nat.mul_eq_zero.mp h5 with h | h
          · omega
          · exact h
        omega
      have e1 : a.x + (b.x - a.x).sign * ((i : ℤ) + 1) -
          (a.x + (b.x - a.x).sign * (i : ℤ)) = (b.x - a.x).sign := by ring
      have e2 : a.y + (b.y - a.y).sign * ((j : ℤ) + 1) -
          (a.y + (b.y - a.y).sign * (j : ℤ)) = (b.y - a.y).sign := by ring
      push_cast
      rw [e1, e2]
      simp [Int.natAbs_sign_of_nonzero hnx, Int.natAbs_sign_of_nonzero hny]
  · -- degenerate: both deltas are zero, the line is the single tile `a`
    have hx : (b.x - a.x).natAbs = 0 := by omega
    have hy : (b.y - a.y).natAbs = 0 := by omega
    simp only [supercover, hx, hy]
    have hlist : scList 0 0 = [(0, 0)] := rfl
    rw [hlist]
    simp

theorem supercover_symm (a b : Tile) :
    supercover b a = (supercover a b).reverse := by
  have hdx : a.x - b.x = -(b.x - a.x) := by ring
  have hdy : a.y - b.y = -(b.y - a.y) := by ring
  by_cases hnd : 0 < (b.x - a.x).natAbs + (b.y - a.y).natAbs
  · simp only [supercover, hdx, hdy, Int.natAbs_neg, Int.sign_neg]
    rw [← List.map_reverse, scList_reverse, List.map_map]
    apply List.map_congr_left
    intro s hmem
    have hinv := scWalk_mem_inv (b.x - a.x).natAbs (b.y - a.y).natAbs hnd
      ((b.x - a.x).natAbs + (b.y - a.y).natAbs + 2) (0, 0)
      (scInv_init _ _ hnd) s hmem
    obtain ⟨h1, h2, _, _⟩ := hinv
    simp only [Function.comp_apply, scFlip]
    have c1 : (((b.x - a.x).natAbs - s.1 : ℕ) : ℤ) =
        ((b.x - a.x).natAbs : ℤ) - (s.1 : ℤ) := by omega
    have c2 : (((b.y - a.y).natAbs - s.2 : ℕ) : ℤ) =
        ((b.y - a.y).natAbs : ℤ) - (s.2 : ℤ) := by omega
    have hsx : (b.x - a.x).sign * ((b.x - a.x).natAbs : ℤ) = b.x - a.x :=
      Int.sign_mul_natAbs _
    have hsy : (b.y - a.y).sign * ((b.y - a.y).natAbs : ℤ) = b.y - a.y :=
      Int.sign_mul_natAbs _
    ext
    · dsimp only
      rw [c1]
      nlinarith [hsx]
    · dsimp only
      rw [c2]
      nlinarith [hsy]
  · have hbx : b.x = a.x := by omega
    have hby : b.y = a.y := by omega
    have hba : b = a := Tile.ext hbx hby
    rw [hba]
    have hx0 : (a.x - a.x).natAbs = 0 := by simp
    have hy0 : (a.y - a.y).natAbs = 0 := by simp
    simp only [supercover, hx0, hy0]
    have hlist : scList 0 0 = [(0, 0)] := rfl
    rw [hlist]
    simp

/-- C2: for every pair of tiles, the supercover line-tile sequence starts at
`a`, ends at `b`, every consecutive pair of tiles is 8-adjacent (Chebyshev
distance exactly 1, so there are no gaps), and the sequence for `(b, a)` is
exactly the reverse of the sequence for `(a, b)`. -/
theorem supercover_line_properties (a b : Tile) :
    (supercover a b).head? = some a ∧
    (supercover a b).getLast? = some b ∧
    List.Chain' (fun t u => max (u.x - t.x).natAbs (u.y - t.y).natAbs = 1)
      (supercover a b) ∧
    supercover b a = (supercover a b).reverse :=
  ⟨supercover_head a b, supercover_last a b, supercover_chain a b,
    supercover_symm a b⟩

/-! ### The tile iterator and `Tile::get_box` -/

/-- src/tile.rs `TileIterator`: iterator state over a rectangle of tiles. -/
structure TileIterator where
  upper_left : Tile
  lower_right : Tile
  x : ℤ
  y : ℤ

/-- src/tile.rs `TileIterator::new`. -/
def TileIterator.new (upper_left lower_right : Tile) : TileIterator :=
  { upper_left := upper_left, lower_right := lower_right,
    x := upper_left.x, y := upper_left.y }

/-- src/tile.rs `TileIterator::next`, iterated to exhaustion: rows from top to
bottom, left to right within a row. -/
def TileIterator.toList (it : TileIterator) : List Tile :=
  if it.y > it.lower_right.y then []
  else if it.x < it.lower_right.x then
    { x := it.x, y := it.y } :: TileIterator.toList { it with x := it.x + 1 }
  else
    { x := it.x, y := it.y } ::
      TileIterator.toList { it with x := it.upper_left.x, y := it.y + 1 }
termination_by ((it.lower_right.y + 1 - it.y).toNat, (it.lower_right.x - it.x).toNat)
decreasing_by
  · apply Prod.Lex.right
    omega
  · apply Prod.Lex.left
    omega

/-- The Rust remainder `s % 2` (truncating, so `-1` for negative odd `s`)
equals `1` exactly for positive odd `s`. -/
theorem tmod_two_eq_one (s : ℤ) : Int.tmod s 2 = 1 ↔ (1 ≤ s ∧ s % 2 = 1) := by
  cases s with
  | ofNat m =>
    simp [Int.tmod]
    omega
  | negSucc m =>
    simp only [Int.tmod, Int.negSucc_eq, Int.ofNat_eq_coe]
    omega

/-- The `f32` floor division `(s as f32 / 2.0).floor() as i32` of the source is
Euclidean division by two. -/
theorem floor_int_div_two (s : ℤ) : ⌊(s : ℚ) / 2⌋ = s / 2 := by
  have h := Rat.floor_intCast_div_natCast s 2
  simpa using h

/-- src/tile.rs `Tile::get_box`: the square box of tiles of the given side
length around `center` (the source shadows `side_length` with
`side_length - 1`; `x_end`/`y_end` get `+= 1` when that shadowed value
satisfies Rust `% 2 == 1`). -/
def Tile.get_box (center : Tile) (side_length : ℤ) : List Tile :=
  let side : ℤ := side_length - 1
  let half : ℤ := ⌊(side : ℚ) / 2⌋
  let x_start : ℤ := center.x - half
  let y_start : ℤ := center.y - half
  let adj : ℤ := if Int.tmod side 2 = 1 then 1 else 0
  let x_end : ℤ := center.x + half + adj
  let y_end : ℤ := center.y + half + adj
  (TileIterator.new { x := x_start, y := y_start } { x := x_end, y := y_end }).toList

/-- Membership in the tile iterator output, for states whose `x` cursor lies
inside the column range. -/
theorem TileIterator.mem_toList (it : TileIterator) :
    ∀ (_ : it.upper_left.x ≤ it.x) (_ : it.x ≤ it.lower_right.x) (t : Tile),
      (t ∈ it.toList ↔
        (it.y ≤ t.y ∧ t.y ≤ it.lower_right.y ∧
         it.upper_left.x ≤ t.x ∧ t.x ≤ it.lower_right.x ∧
         (t.y = it.y → it.x ≤ t.x))) := by
  induction it using TileIterator.toList.induct with
  | case1 it h =>
    intro hx0 hx1 t
    rw [TileIterator.toList.eq_def]
    simp only [if_pos h]
    constructor
    · intro hmem
      exact absurd hmem (List.not_mem_nil t)
    · rintro ⟨h1, h2, -, -, -⟩
      omega
  | case2 it h1 h2 ih =>
    intro hx0 hx1 t
    rw [TileIterator.toList.eq_def]
    simp only [if_neg h1, if_pos h2, List.mem_cons]
    have ihx := ih (by dsimp only; omega) (by dsimp only; omega) t
    dsimp only at ihx
    rw [ihx, Tile.ext_iff]
    dsimp only
    omega
  | case3 it h1 h2 ih =>
    intro hx0 hx1 t
    rw [TileIterator.toList.eq_def]
    simp only [if_neg h1, if_neg h2, List.mem_cons]
    have ihx := ih (by dsimp only; omega) (by dsimp only; omega) t
    dsimp only at ihx
    rw [ihx, Tile.ext_iff]
    dsimp only
    omega

/-- For `side_length ≥ 1` the box is exactly the block
`[center - (n-1)/2, center + n/2]` on each axis (lower/right bias for even
side lengths). -/
theorem Tile.mem_get_box (center : Tile) (n : ℤ) (hn : 1 ≤ n) (t : Tile) :
    t ∈ Tile.get_box center n ↔
      (center.x - (n - 1) / 2 ≤ t.x ∧ t.x ≤ center.x + n / 2 ∧
       center.y - (n - 1) / 2 ≤ t.y ∧ t.y ≤ center.y + n / 2) := by
  simp only [Tile.get_box, TileIterator.new, floor_int_div_two, tmod_two_eq_one]
  split_ifs with hpar
  · rw [TileIterator.mem_toList _ (by dsimp only; omega) (by dsimp only; omega) t]
    dsimp only
    omega
  · rw [TileIterator.mem_toList _ (by dsimp only; omega) (by dsimp only; omega) t]
    dsimp only
    omega

theorem Tile.get_box_one (center : Tile) : Tile.get_box center 1 = [center] := by
  have h0 : ((1 : ℤ) - 1) = 0 := by norm_num
  have hhalf : ⌊(((1 : ℤ) - 1 : ℤ) : ℚ) / 2⌋ = 0 := by
    rw [h0]
    norm_num
  have htm : ¬(Int.tmod ((1 : ℤ) - 1) 2 = 1) := by decide
  simp only [Tile.get_box, TileIterator.new, hhalf, if_neg htm]
  rw [TileIterator.toList.eq_def]
  simp only [gt_iff_lt, add_zero, sub_zero, lt_irrefl, if_false]
  rw [TileIterator.toList.eq_def]
  simp [Tile.ext_iff]

theorem Tile.get_box_empty (center : Tile) (n : ℤ) (hn : n ≤ 0) :
    Tile.get_box center n = [] := by
  have hhalf : ⌊((n - 1 : ℤ) : ℚ) / 2⌋ = (n - 1) / 2 := floor_int_div_two _
  simp only [Tile.get_box, TileIterator.new, hhalf, tmod_two_eq_one]
  rw [if_neg (by omega)]
  rw [TileIterator.toList.eq_def]
  rw [if_pos (by dsimp only; omega)]

/-- C4 counterexample: at `side_length = 0` (which is `≤ 1`) `Tile::get_box`
yields the empty list, not the single tile `{center}`. -/
theorem get_box_zero_not_center :
    (0 : ℤ) ≤ 1 ∧ Tile.get_box { x := 0, y := 0 } 0 ≠ [{ x := 0, y := 0 }] := by
  refine ⟨by norm_num, ?_⟩
  rw [Tile.get_box_empty _ 0 (by norm_num)]
  simp

/-- C4 (amended): for `side_length ≥ 1`, `Tile::get_box` yields exactly the
`n × n` axis-aligned block around `center` with lower/right bias on even side
lengths; `side_length = 1` yields exactly `[center]`; but every
`side_length ≤ 0` yields the empty box rather than `{center}`. -/
theorem get_box_characterization (center : Tile) (n : ℤ) :
    (1 ≤ n → ∀ t : Tile,
      (t ∈ Tile.get_box center n ↔
        (center.x - (n - 1) / 2 ≤ t.x ∧ t.x ≤ center.x + n / 2 ∧
         center.y - (n - 1) / 2 ≤ t.y ∧ t.y ≤ center.y + n / 2))) ∧
    Tile.get_box center 1 = [center] ∧
    (n ≤ 0 → Tile.get_box center n = []) :=
  ⟨fun hn t => Tile.mem_get_box center n hn t, Tile.get_box_one center,
    fun hn => Tile.get_box_empty center n hn⟩

/-- Witness for C4 at `center = (0,0)`, `side_length = 2`. -/
theorem get_box_characterization_witness :
    (1 : ℤ) ≤ 2 ∧ ({ x := 0, y := 0 } : Tile) ∈ Tile.get_box { x := 0, y := 0 } 2 := by
  refine ⟨by norm_num, ?_⟩
  rw [(get_box_characterization { x := 0, y := 0 } 2).1 (by norm_num) { x := 0, y := 0 }]
  norm_num

/-! ### Effects: station blinks and trains -/

/-- src/data.rs `StationId` (a `u32` newtype). -/
abbrev StationId := ℕ

/-- src/data.rs `Station`. -/
structure Station where
  id : StationId
  name : String
  coord : MapCoord
deriving DecidableEq

/-- An RGB color (`[u8; 3]` in the source). -/
abbrev Color := ℕ × ℕ × ℕ

/-- src/effect.rs `STATION_BLINK_COLOR`. -/
def STATION_BLINK_COLOR : Color := (0xff, 0xff, 0x00)

/-- src/effect.rs `TRAIN_COLOR`. -/
def TRAIN_COLOR : Color := (0x2a, 0xaf, 0xdb)

/-- src/effect.rs `StationBlink`.  `remaining_frames` is a `u16`; over `ℕ` the
`saturating_sub` of the source is truncated subtraction. -/
structure StationBlink where
  coord : MapCoord
  remaining_frames : ℕ
deriving DecidableEq

/-- src/effect.rs `impl Effect for StationBlink`, `update`. -/
def StationBlink.update (b : StationBlink) : StationBlink :=
  { b with remaining_frames := b.remaining_frames - 1 }

/-- src/effect.rs `impl Effect for StationBlink`, `is_valid`. -/
def StationBlink.is_valid (b : StationBlink) : Bool :=
  decide (b.remaining_frames > 0)

/-- src/effect.rs `impl Effect for StationBlink`, `get_colors`
(`BLINK_RATE = 100`; by Rust operator precedence the duty-cycle test is
`(remaining_frames % 100) * 2 < 100`). -/
def StationBlink.get_colors (b : StationBlink) (map_frame : MapFrame) :
    List (Tile × Color) :=
  if b.remaining_frames % 100 * 2 < 100 then
    (Tile.get_box (map_frame.get_tile b.coord) map_frame.station_width).map
      (fun t => (t, STATION_BLINK_COLOR))
  else []

/-- src/effect.rs `TrackSection`. -/
structure TrackSection where
  start_station_id : StationId
  end_station_id : StationId
  length : Degree
deriving DecidableEq

/-- src/effect.rs `Train`.  The shared station table is carried as a list;
the `write_sender` channel handle (a fire-and-forget notification used only
for the popularity heuristic) carries no train state and is dropped. -/
structure Train where
  stations : List Station
  track_sections : List TrackSection
  current_section_index : ℕ
  current_line_progress : Degree
  degrees_per_move : Degree

/-- src/effect.rs `impl Effect for Train`, `update`: add the per-move rate to
the progress, and when the current section (if any) is finished, reset the
progress and advance the section index.  The arrival notification sent on the
channel in the reset branch does not change the train. -/
def Train.update (t : Train) : Train :=
  let progress := t.current_line_progress + t.degrees_per_move
  match t.track_sections[t.current_section_index]? with
  | some current_track_section =>
    if progress ≥ current_track_section.length then
      { t with current_line_progress := 0,
               current_section_index := t.current_section_index + 1 }
    else { t with current_line_progress := progress }
  | none => { t with current_line_progress := progress }

/-- src/effect.rs `impl Effect for Train`, `is_valid`. -/
def Train.is_valid (t : Train) : Bool :=
  decide (t.current_section_index < t.track_sections.length)

/-- src/effect.rs `Train::get_current_path`: the supercover tile path of the
given section.  The source unwraps the two station-table lookups (the ids come
from that same table); absent entries default to the origin coordinate here. -/
def Train.get_current_path (t : Train) (current_track_section : TrackSection)
    (map_frame : MapFrame) : List Tile :=
  let start_coord :=
    (((t.stations.find? (fun s => s.id = current_track_section.start_station_id)).map
      Station.coord).getD { long := 0, lat := 0 })
  let end_coord :=
    (((t.stations.find? (fun s => s.id = current_track_section.end_station_id)).map
      Station.coord).getD { long := 0, lat := 0 })
  supercover (map_frame.get_tile start_coord) (map_frame.get_tile end_coord)

/-- src/effect.rs `impl Effect for Train`, `get_colors`: locate the train's
tile at the fractional index `progress/length × pathLength` (an `as usize`
cast, truncating and saturating at zero) and color a track-width box there.
The source unwraps the path lookup; the out-of-range case yields no colors. -/
def Train.get_colors (t : Train) (map_frame : MapFrame) : List (Tile × Color) :=
  match t.track_sections[t.current_section_index]? with
  | some current_track_section =>
    let path := t.get_current_path current_track_section map_frame
    let tile_index : ℕ :=
      (ratTrunc ((t.current_line_progress / current_track_section.length) *
        (path.length : ℚ))).toNat
    match path[tile_index]? with
    | some current_tile =>
      (Tile.get_box current_tile map_frame.track_width).map
        (fun u => (u, TRAIN_COLOR))
    | none => []
  | none => []

/-- src/effect.rs: the two `Effect` trait implementors as a closed sum. -/
inductive Eff where
  | blink (b : StationBlink)
  | train (t : Train)

/-- Trait dispatch for `update`. -/
def Eff.update : Eff → Eff
  | .blink b => .blink b.update
  | .train t => .train t.update

/-- Trait dispatch for `is_valid`. -/
def Eff.is_valid : Eff → Bool
  | .blink b => b.is_valid
  | .train t => t.is_valid

/-- Trait dispatch for `get_colors`. -/
def Eff.get_colors : Eff → MapFrame → List (Tile × Color)
  | .blink b, f => b.get_colors f
  | .train t, f => t.get_colors f

/-- src/effect.rs `EffectManager::update`, deterministic core: advance every
effect, then retain the valid ones.  The subsequent probabilistic spawn rolls
only append freshly constructed effects and are not part of this core. -/
def EffectManager.updateEffects (effects : List Eff) : List Eff :=
  (effects.map Eff.update).filter Eff.is_valid

theorem updateEffects_valid (l : List Eff) :
    ∀ e ∈ EffectManager.updateEffects l, e.is_valid = true := by
  intro e he
  exact (List.mem_filter.mp he).2

theorem not_mem_updateEffects (e : Eff) (hv : e.is_valid = false) (l : List Eff) :
    e ∉ EffectManager.updateEffects l := by
  intro hmem
  have h := updateEffects_valid l e hmem
  rw [hv] at h
  exact Bool.false_ne_true h

/-! ### C5: a StationBlink with zero remaining frames -/

/-- C5 counterexample: a `StationBlink` with `remaining_frames = 0` does color
tiles: the duty-cycle test `0 % 100 * 2 < 100` passes, so `get_colors` at the
default viewport returns the (non-empty) station box rather than `[]`. -/
theorem blink_zero_colors_nonempty :
    StationBlink.get_colors
      { coord := { long := JAPAN_CENTER_LONG, lat := JAPAN_CENTER_LAT },
        remaining_frames := 0 } MapFrame.default ≠ [] := by
  simp only [StationBlink.get_colors]
  rw [if_pos (by norm_num)]
  have hsw : MapFrame.default.station_width = 1 := by
    norm_num [MapFrame.station_width, MapFrame.default, MapFrame.height,
      JAPAN_TOP, JAPAN_BOTTOM]
  rw [hsw, Tile.get_box_one]
  simp

/-- C5 (amended): a `StationBlink` with `remaining_frames = 0` is immediately
invalid and is removed by the update-then-retain pass of the next
`EffectManager::update`; however its `get_colors` does not return the empty
list: at `remaining_frames = 0` the duty-cycle test passes and it returns the
full station box for every map frame. -/
theorem blink_zero_behaviour (b : StationBlink) (hb : b.remaining_frames = 0) :
    b.is_valid = false ∧
    (∀ l : List Eff, Eff.blink b ∉ EffectManager.updateEffects l) ∧
    (∀ map_frame : MapFrame,
      b.get_colors map_frame =
        (Tile.get_box (map_frame.get_tile b.coord) map_frame.station_width).map
          (fun t => (t, STATION_BLINK_COLOR))) := by
  have hv : b.is_valid = false := by
    simp [StationBlink.is_valid, hb]
  refine ⟨hv, ?_, ?_⟩
  · intro l
    exact not_mem_updateEffects (Eff.blink b) (by simp [Eff.is_valid, hv]) l
  · intro map_frame
    simp [StationBlink.get_colors, hb]

/-- Witness for C5 at a concrete zero-frame blink. -/
theorem blink_zero_behaviour_witness :
    ({ coord := { long := 0, lat := 0 }, remaining_frames := 0 } :
      StationBlink).remaining_frames = 0 ∧
    ({ coord := { long := 0, lat := 0 }, remaining_frames := 0 } :
      StationBlink).is_valid = false :=
  ⟨rfl, (blink_zero_behaviour _ rfl).1⟩

/-! ### C6: train section index is monotone, progress resets on advance -/

theorem train_index_le_update (u : Train) :
    u.current_section_index ≤ (u.update).current_section_index := by
  simp only [Train.update]
  cases hu : u.track_sections[u.current_section_index]? with
  | none => simp
  | some sec =>
    dsimp only
    split_ifs <;> simp

/-- C6: for a train with positive per-move rate, the section index is
non-decreasing over any sequence of updates, and within one update the
progress resets to 0 exactly when the index advances: with a current section,
reaching the section length resets progress and bumps the index by one, and
otherwise the index is unchanged and progress strictly increases (also when
the index is already past the last section). -/
theorem train_section_monotone (t : Train) (hr : 0 < t.degrees_per_move) :
    (∀ n m : ℕ, n ≤ m →
      (Train.update^[n] t).current_section_index ≤
        (Train.update^[m] t).current_section_index) ∧
    (∀ sec, t.track_sections[t.current_section_index]? = some sec →
      ((sec.length ≤ t.current_line_progress + t.degrees_per_move →
        (t.update).current_line_progress = 0 ∧
        (t.update).current_section_index = t.current_section_index + 1) ∧
       (t.current_line_progress + t.degrees_per_move < sec.length →
        (t.update).current_section_index = t.current_section_index ∧
        t.current_line_progress < (t.update).current_line_progress))) ∧
    (t.track_sections[t.current_section_index]? = none →
      (t.update).current_section_index = t.current_section_index ∧
      t.current_line_progress < (t.update).current_line_progress) := by
  refine ⟨?_, ?_, ?_⟩
  · intro n m hnm
    have hmono : Monotone (fun k => (Train.update^[k] t).current_section_index) := by
      apply monotone_nat_of_le_succ
      intro k
      show (Train.update^[k] t).current_section_index ≤
        (Train.update^[k + 1] t).current_section_index
      rw [Function.iterate_succ_apply']
      exact train_index_le_update _
    exact hmono hnm
  · intro sec hsec
    constructor
    · intro hge
      simp only [Train.update, hsec]
      rw [if_pos hge]
      exact ⟨by simp, by simp⟩
    · intro hlt
      simp only [Train.update, hsec]
      rw [if_neg (not_le.mpr hlt)]
      refine ⟨by simp, ?_⟩
      show t.current_line_progress <
        t.current_line_progress + t.degrees_per_move
      exact lt_add_of_pos_right _ hr
  · intro hnone
    simp only [Train.update, hnone]
    refine ⟨by simp, ?_⟩
    show t.current_line_progress <
      t.current_line_progress + t.degrees_per_move
    exact lt_add_of_pos_right _ hr

/-- Witness for C6 at a concrete one-section train that finishes its section. -/
theorem train_section_monotone_witness :
    (0 : ℚ) <
      ({ stations := [], track_sections := [⟨0, 1, 1⟩],
         current_section_index := 0, current_line_progress := 0,
         degrees_per_move := 2 } : Train).degrees_per_move ∧
    (Train.update
      { stations := [], track_sections := [⟨0, 1, 1⟩],
        current_section_index := 0, current_line_progress := 0,
        degrees_per_move := 2 }).current_section_index = 0 + 1 := by
  refine ⟨by norm_num, ?_⟩
  exact (((train_section_monotone
    { stations := [], track_sections := [⟨0, 1, 1⟩], current_section_index := 0,
      current_line_progress := 0, degrees_per_move := 2 }
    (by norm_num)).2.1 ⟨0, 1, 1⟩ (by simp)).1 (by norm_num)).2

/-! ### C7: the popularity aggregator keeps every counter at the ceiling -/

/-- Largest `u32` value. -/
def U32_MAX : ℕ := 2 ^ 32 - 1

/-- src/effect.rs `MAX_STATION_POPULARITY`. -/
def MAX_STATION_POPULARITY : ℕ := 20

/-- `u32::saturating_add(1)` over the `ℕ` model of `u32`. -/
def saturatingAddOne (v : ℕ) : ℕ := min (v + 1) U32_MAX

/-- src/effect.rs `EffectManager::new`, the aggregator loop body for one
arrival event: insert-or-default the station's counter and saturating-add 1,
then, if the maximum counter in the map exceeds the ceiling, divide every
counter by `MAX_STATION_POPULARITY / 10 = 2`.  The map is modelled as a total
counter function (absent keys read 0) together with its key list; the
`values().max() > ceiling` test is the key list's `any` test. -/
def popInsertKey (keys : List StationId) (msg : StationId) : List StationId :=
  if msg ∈ keys then keys else msg :: keys

/-- `guard.entry(msg).or_default()` followed by `saturating_add(1)` as a
counter-function update. -/
def popBump (f : StationId → ℕ) (msg : StationId) : StationId → ℕ :=
  fun k => if k = msg then saturatingAddOne (f msg) else f k

def popProcess (st : (StationId → ℕ) × List StationId) (msg : StationId) :
    (StationId → ℕ) × List StationId :=
  let keys := popInsertKey st.2 msg
  let counters := popBump st.1 msg
  if keys.any (fun k => decide (MAX_STATION_POPULARITY < counters k)) then
    (fun k => counters k / (MAX_STATION_POPULARITY / 10), keys)
  else (counters, keys)

/-- The aggregator run from the all-zero initial state over an event list. -/
def popRun (events : List StationId) : (StationId → ℕ) × List StationId :=
  events.foldl popProcess (fun _ => 0, [])

theorem popProcess_bound (st : (StationId → ℕ) × List StationId)
    (h : ∀ k, st.1 k ≤ MAX_STATION_POPULARITY) (msg : StationId) :
    ∀ k, (popProcess st msg).1 k ≤ MAX_STATION_POPULARITY := by
  intro k
  have hmem : msg ∈ popInsertKey st.2 msg := by
    simp only [popInsertKey]
    split_ifs with hin
    · exact hin
    · exact List.mem_cons_self msg st.2
  have hc : ∀ k2, popBump st.1 msg k2 ≤ MAX_STATION_POPULARITY + 1 := by
    intro k2
    simp only [popBump]
    split_ifs
    · have := h msg
      simp only [saturatingAddOne, MAX_STATION_POPULARITY, U32_MAX] at *
      omega
    · have := h k2
      omega
  simp only [popProcess]
  split_ifs with hany
  · dsimp only
    have := hc k
    simp only [MAX_STATION_POPULARITY] at *
    omega
  · dsimp only
    simp only [List.any_eq_true, decide_eq_true_eq] at hany
    push_neg at hany
    by_cases hk : k = msg
    · subst hk
      have h2 := hany k hmem
      omega
    · simp only [popBump, if_neg hk]
      exact h k

theorem popRun_bound_aux :
    ∀ (events : List StationId) (st : (StationId → ℕ) × List StationId),
      (∀ k, st.1 k ≤ MAX_STATION_POPULARITY) →
      ∀ k, (events.foldl popProcess st).1 k ≤ MAX_STATION_POPULARITY := by
  intro events
  induction events with
  | nil => intro st h k; exact h k
  | cons e es ih =>
    intro st h k
    exact ih (popProcess st e) (popProcess_bound st h e) k

/-- C7: starting from all counters zero, after the aggregator fully processes
any sequence of arrival events every counter is at most the ceiling 20, and
the saturating increment never actually saturates (no overflow): on every
reachable counter value it acts as a plain `+ 1`. -/
theorem popularity_bounded (events : List StationId) (k : StationId) :
    (popRun events).1 k ≤ MAX_STATION_POPULARITY ∧
    saturatingAddOne ((popRun events).1 k) = (popRun events).1 k + 1 := by
  have hb := popRun_bound_aux events (fun _ => 0, []) (fun _ => Nat.zero_le _) k
  refine ⟨hb, ?_⟩
  simp only [popRun, saturatingAddOne, U32_MAX, MAX_STATION_POPULARITY] at hb ⊢
  omega

/-! ### C10: a train whose start and end stations coincide -/

/-- src/effect.rs `Train::new`, section construction: `windows(2)` over the
station-id path from the A* search, each window becoming a `TrackSection`
whose length is the degree-space distance of its endpoint coordinates (the
source's `distance_to` takes an `f32` square root, which leaves `ℚ`, so the
metric is a parameter; the table lookups are unwrapped in the source and
default to the origin here). -/
def buildTrackSections (stations : List Station) (path : List StationId)
    (dist : MapCoord → MapCoord → Degree) : List TrackSection :=
  (path.zip path.tail).map fun w =>
    { start_station_id := w.1, end_station_id := w.2,
      length := dist
        (((stations.find? (fun s => s.id = w.1)).map Station.coord).getD
          { long := 0, lat := 0 })
        (((stations.find? (fun s => s.id = w.2)).map Station.coord).getD
          { long := 0, lat := 0 }) }

/-- Modelled from the spec: when the randomly chosen start and end stations
coincide, the A* search of the external `pathfinding` crate succeeds
immediately with the single-station path `[s]`, and `Train::new` returns
`Some` train built from that path with index 0 and zero progress. -/
def Train.newSameStartEnd (stations : List Station) (s : StationId)
    (dist : MapCoord → MapCoord → Degree) (rate : Degree) : Train :=
  { stations := stations,
    track_sections := buildTrackSections stations [s] dist,
    current_section_index := 0,
    current_line_progress := 0,
    degrees_per_move := rate }

/-- C10: a train spawned with coinciding start and end stations has an empty
`track_sections` list (the single-station A* path has no windows), is invalid
from creation (`0 < 0` fails), renders nothing (`get_colors` is empty for
every map frame), and is removed by the update-then-retain pass of the next
`EffectManager::update`. -/
theorem train_same_start_end (stations : List Station) (s : StationId)
    (dist : MapCoord → MapCoord → Degree) (rate : Degree) :
    (Train.newSameStartEnd stations s dist rate).track_sections = [] ∧
    (Train.newSameStartEnd stations s dist rate).is_valid = false ∧
    (∀ map_frame : MapFrame,
      (Train.newSameStartEnd stations s dist rate).get_colors map_frame = []) ∧
    (∀ l : List Eff,
      Eff.train (Train.newSameStartEnd stations s dist rate) ∉
        EffectManager.updateEffects l) := by
  have hsec : (Train.newSameStartEnd stations s dist rate).track_sections = [] := rfl
  have hv : (Train.newSameStartEnd stations s dist rate).is_valid = false := by
    simp [Train.is_valid, hsec]
  refine ⟨hsec, hv, ?_, ?_⟩
  · intro map_frame
    simp [Train.get_colors, hsec]
  · intro l
    exact not_mem_updateEffects _ (by simp [Eff.is_valid, hv]) l

/-! ### The base map: `World::update_base_map` -/

/-- src/tile.rs `TileStatus`. -/
inductive TileStatus where
  | font (font_index : ℕ)
  | station (s : Station)
  | stationShadow
  | track
deriving DecidableEq

/-- The base map `HashMap<Tile, TileStatus>`: a total function with `none` for
absent tiles. -/
abbrev BaseMap := Tile → Option TileStatus

/-- `HashMap::insert`. -/
def insertTile (m : BaseMap) (t : Tile) (s : TileStatus) : BaseMap :=
  fun u => if u = t then some s else m u

/-- Whether an entry is a station or a station shadow (the patterns of the
track-stamp and font-stamp guards in `update_base_map`). -/
def isStationLike : Option TileStatus → Bool
  | some (.station _) => true
  | some .stationShadow => true
  | _ => false

/-- Whether an entry is a station, a shadow or a track (the font-stamp guard). -/
def isClaimed : Option TileStatus → Bool
  | some (.station _) => true
  | some .stationShadow => true
  | some .track => true
  | _ => false

/-- One track stamp (src/world.rs lines 218-225): stations already present
have priority over tracks, otherwise the tile becomes a track. -/
def trackInsert (m : BaseMap) (t : Tile) : BaseMap :=
  if isStationLike (m t) then m else insertTile m t .track

/-- One font stamp (src/world.rs lines 261-268): fonts have lower priority
than stations and tracks. -/
def fontInsert (m : BaseMap) (tf : Tile × ℕ) : BaseMap :=
  if isClaimed (m tf.1) then m else insertTile m tf.1 (.font tf.2)

/-- The station-square stamp (src/world.rs lines 192-201): the center tile
becomes `Station`, the rest of the box `StationShadow`. -/
def stampStationBox (map_frame : MapFrame) (station : Station) (m : BaseMap) :
    BaseMap :=
  let station_tile := map_frame.get_tile station.coord
  (Tile.get_box station_tile map_frame.station_width).foldl
    (fun m tile =>
      insertTile m tile
        (if tile = station_tile then .station station else .stationShadow)) m

/-- The track stamps for one connection of one station (src/world.rs lines
203-227): a track-width box around every supercover tile of the line between
the two station tiles.  The source unwraps the station-table lookup. -/
def stampConnection (map_frame : MapFrame) (stations : List Station)
    (station : Station) (other_station_id : StationId) (m : BaseMap) : BaseMap :=
  match stations.find? (fun s => s.id = other_station_id) with
  | none => m
  | some other_station =>
    let tile1 := map_frame.get_tile station.coord
    let tile2 := map_frame.get_tile other_station.coord
    (supercover tile1 tile2).foldl
      (fun m inner_tile =>
        (Tile.get_box inner_tile map_frame.track_width).foldl trackInsert m) m

/-- Processing one visible station: its square stamp, then its connections. -/
def processStation (map_frame : MapFrame) (stations : List Station)
    (connections : StationId → List StationId) (m : BaseMap)
    (station : Station) : BaseMap :=
  (connections station.id).foldl
    (fun m oid => stampConnection map_frame stations station oid m)
    (stampStationBox map_frame station m)

/-- src/world.rs `World::update_base_map`: clear the map, stamp every visible
station's square and its connections' tracks, then stamp the label
collaborator's font tiles (an arbitrary list here: the glyph rasterization in
`FontManager::get_font_tiles` is done by the external `rusttype` dependency),
each only onto tiles holding no station, shadow or track. -/
def update_base_map (map_frame : MapFrame) (stations : List Station)
    (connections : StationId → List StationId)
    (font_tiles : List (Tile × ℕ)) : BaseMap :=
  let m := (stations.filter (fun s => map_frame.is_visible s.coord)).foldl
    (processStation map_frame stations connections) (fun _ => none)
  font_tiles.foldl fontInsert m

/-- A tile some visible station square stamped during the rebuild. -/
def claimedByStation (map_frame : MapFrame) (stations : List Station)
    (t : Tile) : Prop :=
  ∃ st ∈ stations.filter (fun s => map_frame.is_visible s.coord),
    t ∈ Tile.get_box (map_frame.get_tile st.coord) map_frame.station_width

/-- A tile some track stamp of the rebuild claimed (whether or not the stamp
was suppressed by station priority). -/
def claimedByTrack (map_frame : MapFrame) (stations : List Station)
    (connections : StationId → List StationId) (t : Tile) : Prop :=
  ∃ st ∈ stations.filter (fun s => map_frame.is_visible s.coord),
    ∃ oid ∈ connections st.id, ∃ other_station,
      stations.find? (fun s => s.id = oid) = some other_station ∧
      ∃ inner ∈ supercover (map_frame.get_tile st.coord)
          (map_frame.get_tile other_station.coord),
        t ∈ Tile.get_box inner map_frame.track_width

theorem stationLike_claimed {o : Option TileStatus}
    (h : isStationLike o = true) : isClaimed o = true := by
  cases o with
  | none => simp [isStationLike] at h
  | some s => cases s <;> simp_all [isStationLike, isClaimed]

/-- A pointwise property preserved by each fold step is preserved by the fold. -/
theorem foldl_preserve {α : Type} (P : BaseMap → Prop) (f : BaseMap → α → BaseMap)
    (hf : ∀ m a, P m → P (f m a)) :
    ∀ (l : List α) (m : BaseMap), P m → P (l.foldl f m) := by
  intro l
  induction l with
  | nil => intro m h; exact h
  | cons a l ih => intro m h; exact ih (f m a) (hf m a h)

/-- A pointwise property established by the fold step at some list member and
preserved by every step holds after the fold. -/
theorem foldl_mem_sets {α : Type} (P : BaseMap → Prop) (f : BaseMap → α → BaseMap)
    (hpres : ∀ m a, P m → P (f m a)) (a : α) (hset : ∀ m, P (f m a)) :
    ∀ (l : List α) (m : BaseMap), a ∈ l → P (l.foldl f m) := by
  intro l
  induction l with
  | nil => intro m h; simp at h
  | cons b l ih =>
    intro m hmem
    rcases List.mem_cons.mp hmem with h | h
    · subst h
      exact foldl_preserve P f hpres l (f m a) (hset m)
    · exact ih (f m b) h

theorem insertTile_at (m : BaseMap) (t : Tile) (s : TileStatus) :
    insertTile m t s t = some s := by
  simp [insertTile]

theorem insertTile_other (m : BaseMap) (u t : Tile) (s : TileStatus)
    (h : t ≠ u) : insertTile m u s t = m t := by
  simp [insertTile, h]

theorem trackInsert_preserve_stationLike (m : BaseMap) (u t : Tile)
    (h : isStationLike (m t) = true) :
    isStationLike (trackInsert m u t) = true := by
  simp only [trackInsert]
  split_ifs with hg
  · exact h
  · by_cases ht : t = u
    · subst ht
      exact absurd h hg
    · rw [insertTile_other m u t _ ht]
      exact h

theorem trackInsert_preserve_claimed (m : BaseMap) (u t : Tile)
    (h : isClaimed (m t) = true) :
    isClaimed (trackInsert m u t) = true := by
  simp only [trackInsert]
  split_ifs with hg
  · exact h
  · by_cases ht : t = u
    · subst ht
      rw [insertTile_at]
      rfl
    · rw [insertTile_other m u t _ ht]
      exact h

theorem trackInsert_sets_claimed (m : BaseMap) (u : Tile) :
    isClaimed (trackInsert m u u) = true := by
  simp only [trackInsert]
  split_ifs with hg
  · exact stationLike_claimed hg
  · rw [insertTile_at]
    rfl

theorem insertTile_preserve_stationLike (m : BaseMap) (u t : Tile)
    (s : TileStatus) (hs : isStationLike (some s) = true)
    (h : isStationLike (m t) = true) :
    isStationLike (insertTile m u s t) = true := by
  by_cases ht : t = u
  · subst ht
    rw [insertTile_at]
    exact hs
  · rw [insertTile_other m u t s ht]
    exact h

theorem insertTile_preserve_claimed (m : BaseMap) (u t : Tile)
    (s : TileStatus) (hs : isClaimed (some s) = true)
    (h : isClaimed (m t) = true) :
    isClaimed (insertTile m u s t) = true := by
  by_cases ht : t = u
  · subst ht
    rw [insertTile_at]
    exact hs
  · rw [insertTile_other m u t s ht]
    exact h

theorem boxValue_stationLike (station : Station) (tile station_tile : Tile) :
    isStationLike (some
      (if tile = station_tile then TileStatus.station station
       else TileStatus.stationShadow)) = true := by
  split_ifs <;> rfl

theorem stampStationBox_preserve_stationLike (map_frame : MapFrame)
    (station : Station) (m : BaseMap) (t : Tile)
    (h : isStationLike (m t) = true) :
    isStationLike (stampStationBox map_frame station m t) = true := by
  apply foldl_preserve (fun m2 => isStationLike (m2 t) = true) _ ?_ _ m h
  intro m2 tile hm
  exact insertTile_preserve_stationLike m2 tile t _
    (boxValue_stationLike station tile _) hm

theorem stampStationBox_preserve_claimed (map_frame : MapFrame)
    (station : Station) (m : BaseMap) (t : Tile)
    (h : isClaimed (m t) = true) :
    isClaimed (stampStationBox map_frame station m t) = true := by
  apply foldl_preserve (fun m2 => isClaimed (m2 t) = true) _ ?_ _ m h
  intro m2 tile hm
  exact insertTile_preserve_claimed m2 tile t _
    (stationLike_claimed (boxValue_stationLike station tile _)) hm

theorem stampStationBox_sets (map_frame : MapFrame) (station : Station)
    (m : BaseMap) (t : Tile)
    (ht : t ∈ Tile.get_box (map_frame.get_tile station.coord)
      map_frame.station_width) :
    isStationLike (stampStationBox map_frame station m t) = true := by
  apply foldl_mem_sets (fun m2 => isStationLike (m2 t) = true) _ ?_ t ?_ _ m ht
  · intro m2 tile hm
    exact insertTile_preserve_stationLike m2 tile t _
      (boxValue_stationLike station tile _) hm
  · intro m2
    rw [insertTile_at]
    exact boxValue_stationLike station t _

theorem trackBoxFold_preserve_claimed (box : List Tile) (m : BaseMap) (t : Tile)
    (h : isClaimed (m t) = true) :
    isClaimed (box.foldl trackInsert m t) = true := by
  apply foldl_preserve (fun m2 => isClaimed (m2 t) = true) _ ?_ _ m h
  intro m2 u hm
  exact trackInsert_preserve_claimed m2 u t hm

theorem stampConnection_preserve_stationLike (map_frame : MapFrame)
    (stations : List Station) (station : Station) (oid : StationId)
    (m : BaseMap) (t : Tile) (h : isStationLike (m t) = true) :
    isStationLike (stampConnection map_frame stations station oid m t) = true := by
  simp only [stampConnection]
  cases hf : stations.find? (fun s => s.id = oid) with
  | none => exact h
  | some other =>
    dsimp only
    apply foldl_preserve (fun m2 => isStationLike (m2 t) = true) _ ?_ _ m h
    intro m2 inner hm
    apply foldl_preserve (fun m3 => isStationLike (m3 t) = true) _ ?_ _ m2 hm
    intro m3 u hm3
    exact trackInsert_preserve_stationLike m3 u t hm3

theorem stampConnection_preserve_claimed (map_frame : MapFrame)
    (stations : List Station) (station : Station) (oid : StationId)
    (m : BaseMap) (t : Tile) (h : isClaimed (m t) = true) :
    isClaimed (stampConnection map_frame stations station oid m t) = true := by
  simp only [stampConnection]
  cases hf : stations.find? (fun s => s.id = oid) with
  | none => exact h
  | some other =>
    dsimp only
    apply foldl_preserve (fun m2 => isClaimed (m2 t) = true) _ ?_ _ m h
    intro m2 inner hm
    exact trackBoxFold_preserve_claimed _ m2 t hm

theorem stampConnection_sets_claimed (map_frame : MapFrame)
    (stations : List Station) (station : Station) (oid : StationId)
    (other_station : Station) (m : BaseMap) (t inner : Tile)
    (hf : stations.find? (fun s => s.id = oid) = some other_station)
    (hinner : inner ∈ supercover (map_frame.get_tile station.coord)
      (map_frame.get_tile other_station.coord))
    (ht : t ∈ Tile.get_box inner map_frame.track_width) :
    isClaimed (stampConnection map_frame stations station oid m t) = true := by
  simp only [stampConnection, hf]
  apply foldl_mem_sets (fun m2 => isClaimed (m2 t) = true) _ ?_ inner ?_ _ m hinner
  · intro m2 i2 hm
    exact trackBoxFold_preserve_claimed _ m2 t hm
  · intro m2
    apply foldl_mem_sets (fun m3 => isClaimed (m3 t) = true) trackInsert ?_ t ?_ _ m2 ht
    · intro m3 u hm3
      exact trackInsert_preserve_claimed m3 u t hm3
    · intro m3
      exact trackInsert_sets_claimed m3 t

theorem processStation_preserve_stationLike (map_frame : MapFrame)
    (stations : List Station) (connections : StationId → List StationId)
    (m : BaseMap) (station : Station) (t : Tile)
    (h : isStationLike (m t) = true) :
    isStationLike
      (processStation map_frame stations connections m station t) = true := by
  apply foldl_preserve (fun m2 => isStationLike (m2 t) = true) _ ?_ _ _
    (stampStationBox_preserve_stationLike map_frame station m t h)
  intro m2 oid hm
  exact stampConnection_preserve_stationLike map_frame stations station oid m2 t hm

theorem processStation_preserve_claimed (map_frame : MapFrame)
    (stations : List Station) (connections : StationId → List StationId)
    (m : BaseMap) (station : Station) (t : Tile)
    (h : isClaimed (m t) = true) :
    isClaimed (processStation map_frame stations connections m station t) = true := by
  apply foldl_preserve (fun m2 => isClaimed (m2 t) = true) _ ?_ _ _
    (stampStationBox_preserve_claimed map_frame station m t h)
  intro m2 oid hm
  exact stampConnection_preserve_claimed map_frame stations station oid m2 t hm

theorem processStation_sets_stationLike (map_frame : MapFrame)
    (stations : List Station) (connections : StationId → List StationId)
    (m : BaseMap) (station : Station) (t : Tile)
    (ht : t ∈ Tile.get_box (map_frame.get_tile station.coord)
      map_frame.station_width) :
    isStationLike
      (processStation map_frame stations connections m station t) = true := by
  apply foldl_preserve (fun m2 => isStationLike (m2 t) = true) _ ?_ _ _
    (stampStationBox_sets map_frame station m t ht)
  intro m2 oid hm
  exact stampConnection_preserve_stationLike map_frame stations station oid m2 t hm

theorem processStation_sets_claimed (map_frame : MapFrame)
    (stations : List Station) (connections : StationId → List StationId)
    (m : BaseMap) (station : Station) (oid : StationId)
    (other_station : Station) (t inner : Tile)
    (hoid : oid ∈ connections station.id)
    (hf : stations.find? (fun s => s.id = oid) = some other_station)
    (hinner : inner ∈ supercover (map_frame.get_tile station.coord)
      (map_frame.get_tile other_station.coord))
    (ht : t ∈ Tile.get_box inner map_frame.track_width) :
    isClaimed (processStation map_frame stations connections m station t) = true := by
  apply foldl_mem_sets (fun m2 => isClaimed (m2 t) = true) _ ?_ oid ?_ _ _ hoid
  · intro m2 o2 hm
    exact stampConnection_preserve_claimed map_frame stations station o2 m2 t hm
  · intro m2
    exact stampConnection_sets_claimed map_frame stations station oid
      other_station m2 t inner hf hinner ht

theorem fontInsert_preserve_stationLike (m : BaseMap) (tf : Tile × ℕ) (t : Tile)
    (h : isStationLike (m t) = true) :
    isStationLike (fontInsert m tf t) = true := by
  simp only [fontInsert]
  split_ifs with hg
  · exact h
  · by_cases ht : t = tf.1
    · subst ht
      exact absurd (stationLike_claimed h) hg
    · rw [insertTile_other m tf.1 t _ ht]
      exact h

theorem fontInsert_preserve_claimed (m : BaseMap) (tf : Tile × ℕ) (t : Tile)
    (h : isClaimed (m t) = true) :
    isClaimed (fontInsert m tf t) = true := by
  simp only [fontInsert]
  split_ifs with hg
  · exact h
  · by_cases ht : t = tf.1
    · subst ht
      exact absurd h hg
    · rw [insertTile_other m tf.1 t _ ht]
      exact h

theorem update_base_map_stationLike (map_frame : MapFrame)
    (stations : List Station) (connections : StationId → List StationId)
    (font_tiles : List (Tile × ℕ)) (t : Tile)
    (hcs : claimedByStation map_frame stations t) :
    isStationLike
      (update_base_map map_frame stations connections font_tiles t) = true := by
  obtain ⟨st, hst, hbox⟩ := hcs
  simp only [update_base_map]
  refine foldl_preserve (fun m2 => isStationLike (m2 t) = true) fontInsert
    ?_ font_tiles _ ?_
  · intro m2 tf hm
    exact fontInsert_preserve_stationLike m2 tf t hm
  · refine foldl_mem_sets (fun m2 => isStationLike (m2 t) = true) _ ?_ st ?_ _ _ hst
    · intro m2 st2 hm
      exact processStation_preserve_stationLike map_frame stations connections
        m2 st2 t hm
    · intro m2
      exact processStation_sets_stationLike map_frame stations connections
        m2 st t hbox

theorem update_base_map_claimed (map_frame : MapFrame)
    (stations : List Station) (connections : StationId → List StationId)
    (font_tiles : List (Tile × ℕ)) (t : Tile)
    (hc : claimedByStation map_frame stations t ∨
      claimedByTrack map_frame stations connections t) :
    isClaimed
      (update_base_map map_frame stations connections font_tiles t) = true := by
  rcases hc with hcs | hct
  · exact stationLike_claimed
      (update_base_map_stationLike map_frame stations connections font_tiles t hcs)
  · obtain ⟨st, hst, oid, hoid, other, hf, inner, hinner, hbox⟩ := hct
    simp only [update_base_map]
    refine foldl_preserve (fun m2 => isClaimed (m2 t) = true) fontInsert
      ?_ font_tiles _ ?_
    · intro m2 tf hm
      exact fontInsert_preserve_claimed m2 tf t hm
    · refine foldl_mem_sets (fun m2 => isClaimed (m2 t) = true) _ ?_ st ?_ _ _ hst
      · intro m2 st2 hm
        exact processStation_preserve_claimed map_frame stations connections
          m2 st2 t hm
      · intro m2
        exact processStation_sets_claimed map_frame stations connections m2 st
          oid other t inner hoid hf hinner hbox

/-- C3: in any single rebuild of the base map, every tile stamped by a
visible station's square ends with status `Station` or `StationShadow`
(`isStationLike`), never `Track` — whatever the processing order of stations
and connections — and a tile ends with status `Font` only if no station
square and no track stamp claimed it during the rebuild. -/
theorem base_map_priority (map_frame : MapFrame) (stations : List Station)
    (connections : StationId → List StationId) (font_tiles : List (Tile × ℕ))
    (t : Tile) :
    (claimedByStation map_frame stations t →
      isStationLike
        (update_base_map map_frame stations connections font_tiles t) = true) ∧
    (∀ font_index : ℕ,
      update_base_map map_frame stations connections font_tiles t =
        some (.font font_index) →
      ¬claimedByStation map_frame stations t ∧
      ¬claimedByTrack map_frame stations connections t) := by
  constructor
  · exact update_base_map_stationLike map_frame stations connections font_tiles t
  · intro font_index hfont
    constructor
    · intro hcs
      have h := update_base_map_claimed map_frame stations connections
        font_tiles t (Or.inl hcs)
      rw [hfont] at h
      simp [isClaimed] at h
    · intro hct
      have h := update_base_map_claimed map_frame stations connections
        font_tiles t (Or.inr hct)
      rw [hfont] at h
      simp [isClaimed] at h

/-- The concrete station used by the C3 witness. -/
def witnessStation : Station :=
  { id := 0, name := "a",
    coord := { long := JAPAN_CENTER_LONG, lat := JAPAN_CENTER_LAT } }

/-- Witness for C3: one station at the tile origin in the default viewport. -/
theorem base_map_priority_witness :
    claimedByStation MapFrame.default [witnessStation]
      (MapFrame.default.get_tile witnessStation.coord) ∧
    isStationLike
      (update_base_map MapFrame.default [witnessStation] (fun _ => []) []
        (MapFrame.default.get_tile witnessStation.coord)) = true := by
  have hvis : MapFrame.default.is_visible witnessStation.coord = true := by
    norm_num [MapFrame.is_visible, MapFrame.default, MapFrame.width,
      MapFrame.height, JAPAN_LEFT, JAPAN_RIGHT, JAPAN_TOP, JAPAN_BOTTOM,
      JAPAN_CENTER_LONG, JAPAN_CENTER_LAT, witnessStation]
  have hsw : MapFrame.default.station_width = 1 := by
    norm_num [MapFrame.station_width, MapFrame.default, MapFrame.height,
      JAPAN_TOP, JAPAN_BOTTOM]
  have hclaim : claimedByStation MapFrame.default [witnessStation]
      (MapFrame.default.get_tile witnessStation.coord) := by
    refine ⟨witnessStation, ?_, ?_⟩
    · simp [List.mem_filter, hvis]
    · rw [hsw, Tile.get_box_one]
      simp
  exact ⟨hclaim,
    (base_map_priority MapFrame.default [witnessStation] (fun _ => []) []
      (MapFrame.default.get_tile witnessStation.coord)).1 hclaim⟩

end Sprawl
